import Mathlib

/-!
Verification of the RustGit loose-object decoder.

The Rust sources are shallowly embedded: byte strings (`&[u8]`, `Vec<u8>`,
the UTF-8 bytes of `String`) become `List Nat` whose elements are the byte
values, `Option`-returning parsers stay `Option`-valued, and `io::Result`
values become `Option` (an `Err` is `none`).  Machine integers (`u8`,
`u32`, `usize`) are modelled as `Nat` with the overflow checks of the
source made explicit.
-/

namespace RustGit

/-- ASCII bytes of a string literal (all our literals are pure ASCII). -/
def ascii (s : String) : List Nat := s.data.map Char.toNat

/-! ### Hash codec (src/Decompress/src/main.rs, repeated verbatim in the
other programs): `hex_char_value`, `hex_to_hash`, `impl Display for Hash`. -/

/-- Number of bytes in a hash (`HASH_BYTES` in the source). -/
def HASH_BYTES : Nat := 20

/-- Embedding of `hex_char_value`: value of one hex digit byte.
Accepts `b'0'..=b'9'` and `b'a'..=b'f'` only. -/
def hex_char_value (c : Nat) : Option Nat :=
  if 48 ≤ c ∧ c ≤ 57 then some (c - 48)
  else if 97 ≤ c ∧ c ≤ 102 then some (c - 97 + 10)
  else none

/-- Embedding of the `chunks_exact(2)` loop of `hex_to_hash`: each pair of
hex digits is folded with `value << 4 | char_value` starting from `0`;
a trailing lone digit (`remainder`) fails. -/
def hexPairsToBytes : List Nat → Option (List Nat)
  | [] => some []
  | [_] => none
  | c1 :: c2 :: rest => do
    let v1 ← hex_char_value c1
    let v2 ← hex_char_value c2
    let bytes ← hexPairsToBytes rest
    some ((((0 <<< 4) ||| v1) <<< 4 ||| v2) :: bytes)

/-- Embedding of `hex_to_hash`: decode hex digits, then require exactly
`HASH_BYTES` bytes (the `<[u8; HASH_BYTES]>::try_from` step). -/
def hex_to_hash (hex : List Nat) : Option (List Nat) := do
  let bytes ← hexPairsToBytes hex
  if bytes.length = HASH_BYTES then some bytes else none

/-- Lowercase hex digit of a value below 16, as produced by the `{:02x}`
format used in `impl Display for Hash`. -/
def hexDigitChar (n : Nat) : Nat := if n < 10 then 48 + n else 87 + n

/-- The two lowercase hex digits `{:02x}` prints for one byte. -/
def byteToHexPair (b : Nat) : List Nat := [hexDigitChar (b / 16), hexDigitChar (b % 16)]

/-- Embedding of `impl Display for Hash`: every byte printed as two
lowercase hex digits, in order. -/
def hash_to_hex : List Nat → List Nat
  | [] => []
  | b :: t => byteToHexPair b ++ hash_to_hex t

/-- A byte that `hex_char_value` accepts: `0-9` or lowercase `a-f`. -/
def isLowerHex (c : Nat) : Bool := decide ((48 ≤ c ∧ c ≤ 57) ∨ (97 ≤ c ∧ c ≤ 102))

theorem hex_char_value_isSome (c : Nat) :
    (hex_char_value c).isSome = isLowerHex c := by
  unfold hex_char_value isLowerHex
  by_cases h1 : 48 ≤ c ∧ c ≤ 57 <;> by_cases h2 : 97 ≤ c ∧ c ≤ 102 <;>
    simp [h1, h2]

theorem hex_char_value_lt (c v : Nat) (h : hex_char_value c = some v) : v < 16 := by
  unfold hex_char_value at h
  split at h
  · simp only [Option.some.injEq] at h
    omega
  · split at h
    · simp only [Option.some.injEq] at h
      omega
    · exact absurd h (by simp)

set_option maxRecDepth 10000 in
theorem byte_hex_correct : ∀ b : Nat, b < 256 →
    hex_char_value (hexDigitChar (b / 16)) = some (b / 16) ∧
    hex_char_value (hexDigitChar (b % 16)) = some (b % 16) ∧
    (((0 <<< 4) ||| (b / 16)) <<< 4 ||| (b % 16)) = b ∧
    isLowerHex (hexDigitChar (b / 16)) = true ∧
    isLowerHex (hexDigitChar (b % 16)) = true := by decide

theorem hexPairs_sound : ∀ s bytes : List Nat, hexPairsToBytes s = some bytes →
    s.length = 2 * bytes.length ∧ ∀ c ∈ s, isLowerHex c = true
  | [], bytes => by
    intro h
    simp only [hexPairsToBytes, Option.some.injEq] at h
    subst h
    simp
  | [c], bytes => by
    intro h
    simp [hexPairsToBytes] at h
  | c1 :: c2 :: rest, bytes => by
    intro h
    simp only [hexPairsToBytes, Option.bind_eq_bind, Option.bind_eq_some] at h
    obtain ⟨v1, hv1, v2, hv2, bs, hbs, hcons⟩ := h
    obtain ⟨hlen, hall⟩ := hexPairs_sound rest bs hbs
    simp only [Option.some.injEq] at hcons
    constructor
    · rw [← hcons]
      simp only [List.length_cons]
      omega
    · intro c hc
      simp only [List.mem_cons] at hc
      rcases hc with rfl | rfl | hc
      · rw [← hex_char_value_isSome, hv1]; rfl
      · rw [← hex_char_value_isSome, hv2]; rfl
      · exact hall c hc

theorem hexPairs_complete : ∀ s : List Nat, (∀ c ∈ s, isLowerHex c = true) →
    s.length % 2 = 0 →
    ∃ bytes, hexPairsToBytes s = some bytes ∧ s.length = 2 * bytes.length
  | [] , _, _ => ⟨[], rfl, rfl⟩
  | [c], _, h => by simp at h
  | c1 :: c2 :: rest, hall, hlen => by
    have h1 : (hex_char_value c1).isSome = true := by
      rw [hex_char_value_isSome]; exact hall c1 (by simp)
    have h2 : (hex_char_value c2).isSome = true := by
      rw [hex_char_value_isSome]; exact hall c2 (by simp)
    obtain ⟨v1, hv1⟩ := Option.isSome_iff_exists.mp h1
    obtain ⟨v2, hv2⟩ := Option.isSome_iff_exists.mp h2
    have hres : rest.length % 2 = 0 := by
      simp only [List.length_cons] at hlen; omega
    obtain ⟨bs, hbs, hbslen⟩ := hexPairs_complete rest
      (fun c hc => hall c (by simp [hc])) hres
    refine ⟨(((0 <<< 4) ||| v1) <<< 4 ||| v2) :: bs, ?_, ?_⟩
    · simp [hexPairsToBytes, hv1, hv2, hbs]
    · simp only [List.length_cons]
      omega

theorem hexPairs_roundtrip : ∀ h : List Nat, (∀ b ∈ h, b < 256) →
    hexPairsToBytes (hash_to_hex h) = some h
  | [], _ => rfl
  | b :: t, hb => by
    have hb256 : b < 256 := hb b (by simp)
    have ih := hexPairs_roundtrip t (fun x hx => hb x (by simp [hx]))
    obtain ⟨hd1, hd2, hval, _, _⟩ := byte_hex_correct b hb256
    show hexPairsToBytes
      (hexDigitChar (b / 16) :: hexDigitChar (b % 16) :: hash_to_hex t) = _
    simp only [hexPairsToBytes, Option.bind_eq_bind, hd1, hd2, ih, Option.some_bind,
      Option.some.injEq, hval]

theorem hash_to_hex_chars {h : List Nat} (hb : ∀ b ∈ h, b < 256) :
    ∀ c ∈ hash_to_hex h, isLowerHex c = true := by
  induction h with
  | nil => simp [hash_to_hex]
  | cons b t ih =>
    have hb256 : b < 256 := hb b (by simp)
    obtain ⟨_, _, _, hl1, hl2⟩ := byte_hex_correct b hb256
    intro c hc
    rcases (by simpa [hash_to_hex, byteToHexPair] using hc :
        c = hexDigitChar (b / 16) ∨ c = hexDigitChar (b % 16) ∨
          c ∈ hash_to_hex t) with h1 | h1 | h1
    · rw [h1]; exact hl1
    · rw [h1]; exact hl2
    · exact ih (fun x hx => hb x (by simp [hx])) c h1

/-- C1: for every 20-byte hash, decoding (`hex_to_hash`) the hex encoding
(`Display`, embedded as `hash_to_hex`) returns the hash unchanged, and the
encoding is exactly 40 lowercase hex characters. -/
theorem c1_hex_roundtrip (h : List Nat) (hlen : h.length = HASH_BYTES)
    (hbytes : ∀ b ∈ h, b < 256) :
    hex_to_hash (hash_to_hex h) = some h ∧
    (hash_to_hex h).length = 40 ∧
    ∀ c ∈ hash_to_hex h, isLowerHex c = true := by
  have hrt := hexPairs_roundtrip h hbytes
  have hlen2 : (hash_to_hex h).length = 2 * h.length := (hexPairs_sound _ _ hrt).1
  refine ⟨?_, ?_, hash_to_hex_chars hbytes⟩
  · simp [hex_to_hash, hrt, hlen]
  · rw [hlen2, hlen]; rfl

theorem c1_hex_roundtrip_witness :
    (List.replicate 20 171).length = HASH_BYTES ∧
    hex_to_hash (hash_to_hex (List.replicate 20 171)) = some (List.replicate 20 171) := by
  refine ⟨by decide, ?_⟩
  exact (c1_hex_roundtrip (List.replicate 20 171) (by decide) (by decide)).1

/-- C4 counterexample: the claim says decoding is case-insensitive for the
hex letters, but `hex_char_value` only accepts lowercase `a-f`; an input
of forty uppercase `A` (byte 65) is rejected while forty lowercase `a`
(byte 97) decodes. -/
theorem c4_counterexample :
    hex_to_hash (List.replicate 40 65) = none ∧
    hex_to_hash (List.replicate 40 97) = some (List.replicate 20 170) := by decide

/-- C4 (amended): `hex_to_hash` accepts exactly the inputs of 40 lowercase
hexadecimal characters (digits `0-9` and lowercase `a-f`); every other
input — uppercase letters, any non-hex character, wrong length, odd
length — is rejected. -/
theorem c4_hex_accepts_iff (s : List Nat) :
    (hex_to_hash s).isSome = true ↔ (s.length = 40 ∧ ∀ c ∈ s, isLowerHex c = true) := by
  constructor
  · intro h
    obtain ⟨bytes, hbytes⟩ := Option.isSome_iff_exists.mp h
    simp only [hex_to_hash, Option.bind_eq_bind, Option.bind_eq_some] at hbytes
    obtain ⟨bs, hbs, hif⟩ := hbytes
    have h20 : bs.length = HASH_BYTES := by
      by_contra hne
      simp [hne] at hif
    obtain ⟨hlen, hall⟩ := hexPairs_sound s bs hbs
    exact ⟨by rw [hlen, h20]; rfl, hall⟩
  · rintro ⟨hlen, hall⟩
    obtain ⟨bs, hbs, hbslen⟩ := hexPairs_complete s hall (by rw [hlen])
    have h20 : bs.length = HASH_BYTES := by
      unfold HASH_BYTES; omega
    simp [hex_to_hash, hbs, h20]

theorem c4_hex_accepts_iff_witness :
    (hex_to_hash (List.replicate 40 102)).isSome = true :=
  (c4_hex_accepts_iff (List.replicate 40 102)).mpr (by decide)

/-! ### Shared object-parsing primitives (src/ParseCommit/src/main.rs and
src/ParseTree/src/main.rs): `split_once`, slice `strip_prefix`,
`decimal_char_value`, `parse_decimal`, `check_header`. -/

/-- Embedding of the helper `split_once`: split a byte slice at the first
occurrence of a delimiter, returning the parts before and after it. -/
def split_once : List Nat → Nat → Option (List Nat × List Nat)
  | [], _ => none
  | a :: rest, d =>
    if a = d then some ([], rest)
    else (split_once rest d).map fun p => (a :: p.1, p.2)

/-- Embedding of the slice method `strip_prefix` used throughout the
parsers: remove a literal from the front, or fail. -/
def stripLead : List Nat → List Nat → Option (List Nat)
  | o, [] => some o
  | [], _ :: _ => none
  | a :: o, b :: p => if a = b then stripLead o p else none

theorem split_once_cons_self (d : Nat) (rest : List Nat) :
    split_once (d :: rest) d = some ([], rest) := by
  unfold split_once
  exact if_pos rfl

theorem split_once_cons_of_ne {x d : Nat} (hx : x ≠ d) (rest : List Nat) :
    split_once (x :: rest) d = (split_once rest d).map fun p => (x :: p.1, p.2) := by
  simp only [split_once]
  exact if_neg hx

theorem split_once_eq_some (d : Nat) : ∀ (s a b : List Nat),
    split_once s d = some (a, b) ↔ (d ∉ a ∧ s = a ++ d :: b)
  | [], a, b => by
    constructor
    · intro h; simp [split_once] at h
    · rintro ⟨_, h⟩; exact absurd h (by simp)
  | x :: rest, a, b => by
    by_cases hx : x = d
    · subst hx
      rw [split_once_cons_self]
      constructor
      · intro h
        have ha : ([] : List Nat) = a := congrArg Prod.fst (Option.some.inj h)
        have hb : rest = b := congrArg Prod.snd (Option.some.inj h)
        subst ha; subst hb
        simp
      · rintro ⟨hd, heq⟩
        cases a with
        | nil =>
          simp only [List.nil_append, List.cons.injEq] at heq
          rw [heq.2]
        | cons a0 as =>
          simp only [List.cons_append, List.cons.injEq] at heq
          exact absurd (heq.1 ▸ List.mem_cons_self a0 as) hd
    · rw [split_once_cons_of_ne hx]
      simp only [Option.map_eq_some']
      constructor
      · rintro ⟨⟨a', b'⟩, hp, heq⟩
        simp only [Prod.mk.injEq] at heq
        obtain ⟨ha, hb⟩ := heq
        obtain ⟨hd, hs⟩ := (split_once_eq_some d rest a' b').mp hp
        subst ha; subst hb
        refine ⟨?_, by simp [hs]⟩
        simp only [List.mem_cons]
        rintro (rfl | hmem)
        · exact hx rfl
        · exact hd hmem
      · rintro ⟨hd, hs⟩
        cases a with
        | nil =>
          simp only [List.nil_append, List.cons.injEq] at hs
          exact absurd hs.1 hx
        | cons a0 as =>
          simp only [List.cons_append, List.cons.injEq] at hs
          obtain ⟨hxa, hrest⟩ := hs
          subst hxa
          have hd' : d ∉ as := fun h => hd (List.mem_cons_of_mem _ h)
          exact ⟨(as, b), (split_once_eq_some d rest as b).mpr ⟨hd', hrest⟩, by simp⟩

theorem split_once_snd_length {s : List Nat} {d : Nat} {a b : List Nat}
    (h : split_once s d = some (a, b)) : b.length < s.length := by
  obtain ⟨_, hs⟩ := (split_once_eq_some d s a b).mp h
  subst hs
  simp only [List.length_append, List.length_cons]
  omega

theorem stripLead_eq_some : ∀ (o pre r : List Nat),
    stripLead o pre = some r ↔ o = pre ++ r
  | o, [], r => by simp [stripLead]
  | [], p :: ps, r => by simp [stripLead]
  | a :: o, p :: ps, r => by
    by_cases h : a = p
    · subst h
      simp only [stripLead, if_pos rfl, List.cons_append, List.cons.injEq, true_and]
      exact stripLead_eq_some o ps r
    · simp only [stripLead, if_neg h, List.cons_append, List.cons.injEq]
      constructor
      · intro hf; exact absurd hf (by simp)
      · rintro ⟨rfl, _⟩; exact absurd rfl h

theorem stripLead_append_self (pre r : List Nat) :
    stripLead (pre ++ r) pre = some r := (stripLead_eq_some _ _ _).mpr rfl

/-- Embedding of `decimal_char_value`. -/
def decimal_char_value (c : Nat) : Option Nat :=
  if 48 ≤ c ∧ c ≤ 57 then some (c - 48) else none

/-- Largest value of the Rust `usize` type (64-bit). -/
def USIZE_MAX : Nat := 2 ^ 64 - 1

/-- Rust `usize::checked_mul`: the product, or `None` past `usize::MAX`. -/
def checked_mul (a b : Nat) : Option Nat :=
  if a * b ≤ USIZE_MAX then some (a * b) else none

/-- Rust `usize::checked_add`: the sum, or `None` past `usize::MAX`. -/
def checked_add (a b : Nat) : Option Nat :=
  if a + b ≤ USIZE_MAX then some (a + b) else none

/-- Embedding of the loop of `parse_decimal`: `checked_mul` and
`checked_add` return `None` when the mathematical result would exceed
`usize::MAX`, so overflow is rejected, never wrapped; each `?` in the
source is a `match` with a `none` short-circuit here. -/
def parseDecimalLoop : List Nat → Nat → Option Nat
  | [], value => some value
  | c :: rest, value =>
    match decimal_char_value c with
    | none => none
    | some d =>
      match checked_mul value 10 with
      | none => none
      | some v1 =>
        match checked_add v1 d with
        | none => none
        | some v2 => parseDecimalLoop rest v2

/-- Embedding of `parse_decimal`: fold the digits starting from `0`. -/
def parse_decimal (s : List Nat) : Option Nat := parseDecimalLoop s 0

/-- Mathematical (unbounded) value of a decimal digit string; used to
state that `parse_decimal` never wraps. -/
def decValue (s : List Nat) : Nat := s.foldl (fun a c => a * 10 + (c - 48)) 0

/-- Embedding of `check_header`: strip the expected type literal, split at
the first NUL, parse the decimal size, and require it to equal the exact
number of remaining bytes. -/
def check_header (object : List Nat) (header : List Nat) : Option (List Nat) := do
  let object ← stripLead object header
  let (size, object) ← split_once object 0
  let size ← parse_decimal size
  if object.length = size then some object else none

theorem decimal_char_value_eq_some {c d : Nat} :
    decimal_char_value c = some d ↔ (48 ≤ c ∧ c ≤ 57) ∧ d = c - 48 := by
  unfold decimal_char_value
  split
  · rename_i h
    exact ⟨fun h2 => ⟨h, (Option.some.inj h2).symm⟩, fun h2 => by rw [h2.2]⟩
  · rename_i h
    exact ⟨fun h2 => absurd h2 (by simp), fun h2 => absurd h2.1 h⟩

theorem checked_mul_eq_some {a b v : Nat} :
    checked_mul a b = some v ↔ a * b ≤ USIZE_MAX ∧ v = a * b := by
  unfold checked_mul
  split
  · rename_i h
    exact ⟨fun h2 => ⟨h, (Option.some.inj h2).symm⟩, fun h2 => by rw [h2.2]⟩
  · rename_i h
    exact ⟨fun h2 => absurd h2 (by simp), fun h2 => absurd h2.1 h⟩

theorem checked_add_eq_some {a b v : Nat} :
    checked_add a b = some v ↔ a + b ≤ USIZE_MAX ∧ v = a + b := by
  unfold checked_add
  split
  · rename_i h
    exact ⟨fun h2 => ⟨h, (Option.some.inj h2).symm⟩, fun h2 => by rw [h2.2]⟩
  · rename_i h
    exact ⟨fun h2 => absurd h2 (by simp), fun h2 => absurd h2.1 h⟩

theorem parseDecimalLoop_sound : ∀ (s : List Nat) (v w : Nat), v ≤ USIZE_MAX →
    parseDecimalLoop s v = some w →
    (∀ c ∈ s, 48 ≤ c ∧ c ≤ 57) ∧
      w = s.foldl (fun a c => a * 10 + (c - 48)) v ∧ w ≤ USIZE_MAX
  | [], v, w => by
    intro hv h
    simp only [parseDecimalLoop, Option.some.injEq] at h
    subst h
    exact ⟨by simp, rfl, hv⟩
  | c :: rest, v, w => by
    intro hv h
    unfold parseDecimalLoop at h
    cases hd : decimal_char_value c with
    | none => simp only [hd] at h; exact Option.noConfusion h
    | some d =>
    simp only [hd] at h
    cases hm : checked_mul v 10 with
    | none => simp only [hm] at h; exact Option.noConfusion h
    | some v1 =>
    simp only [hm] at h
    cases ha : checked_add v1 d with
    | none => simp only [ha] at h; exact Option.noConfusion h
    | some v2 =>
    simp only [ha] at h
    obtain ⟨hdig, hdval⟩ := decimal_char_value_eq_some.mp hd
    obtain ⟨_, hv1⟩ := checked_mul_eq_some.mp hm
    obtain ⟨hb2, hv2⟩ := checked_add_eq_some.mp ha
    obtain ⟨hrd, hrv, hrb⟩ := parseDecimalLoop_sound rest v2 w (hv2 ▸ hb2) h
    refine ⟨?_, ?_, hrb⟩
    · intro x hx
      rcases List.mem_cons.mp hx with rfl | hx
      · exact hdig
      · exact hrd x hx
    · simp only [List.foldl_cons]
      rw [hrv, hv2, hv1, hdval]

theorem parseDecimalLoop_nondigit : ∀ (s : List Nat) (v : Nat),
    (∃ c ∈ s, ¬(48 ≤ c ∧ c ≤ 57)) → parseDecimalLoop s v = none
  | [], v => by rintro ⟨c, hc, _⟩; simp at hc
  | c :: rest, v => by
    rintro ⟨x, hx, hbad⟩
    unfold parseDecimalLoop
    rcases List.mem_cons.mp hx with rfl | hx
    · have hd : decimal_char_value x = none := by
        unfold decimal_char_value
        exact if_neg hbad
      simp only [hd]
    · cases hd : decimal_char_value c with
      | none => simp only [hd]
      | some d =>
      simp only [hd]
      cases hm : checked_mul v 10 with
      | none => simp only [hm]
      | some v1 =>
      simp only [hm]
      cases ha : checked_add v1 d with
      | none => simp only [ha]
      | some v2 =>
      simp only [ha]
      exact parseDecimalLoop_nondigit rest v2 ⟨x, hx, hbad⟩

theorem check_header_eq_some (payload hdr body : List Nat) :
    check_header payload hdr = some body ↔
      ∃ sizeStr, payload = hdr ++ sizeStr ++ 0 :: body ∧ (0 : Nat) ∉ sizeStr ∧
        parse_decimal sizeStr = some body.length := by
  constructor
  · intro h
    simp only [check_header, Option.bind_eq_bind, Option.bind_eq_some] at h
    obtain ⟨o1, ho1, ⟨size, rest⟩, hsplit, n, hn, hif⟩ := h
    obtain ⟨hlen2, hbody⟩ : rest.length = n ∧ rest = body := by
      split at hif
      · exact ⟨by assumption, Option.some.inj hif⟩
      · exact absurd hif (by simp)
    subst hbody
    obtain ⟨hs0, ho1eq⟩ := (split_once_eq_some 0 o1 size rest).mp hsplit
    refine ⟨size, ?_, hs0, ?_⟩
    · rw [(stripLead_eq_some payload hdr o1).mp ho1, ho1eq]
      simp
    · rw [← hlen2] at hn
      exact hn
  · rintro ⟨sizeStr, hpay, hs0, hparse⟩
    subst hpay
    simp only [check_header, Option.bind_eq_bind]
    rw [show hdr ++ sizeStr ++ 0 :: body = hdr ++ (sizeStr ++ 0 :: body) by simp,
      stripLead_append_self]
    simp only [Option.some_bind]
    rw [(split_once_eq_some 0 (sizeStr ++ 0 :: body) sizeStr body).mpr ⟨hs0, rfl⟩]
    simp [hparse]

/-- C3: `check_header` strips the type literal, parses an ASCII decimal
length terminated by a NUL, rejects non-digits and overflow (the value is
the true decimal value, never wrapped), succeeds exactly when the length
equals the remaining byte count, and then returns exactly the bytes after
the NUL. -/
theorem c3_check_header :
    (∀ s n, parse_decimal s = some n →
        (∀ c ∈ s, 48 ≤ c ∧ c ≤ 57) ∧ n = decValue s ∧ n ≤ USIZE_MAX) ∧
    (∀ s, (∃ c ∈ s, ¬(48 ≤ c ∧ c ≤ 57)) → parse_decimal s = none) ∧
    (∀ s, USIZE_MAX < decValue s → parse_decimal s = none) ∧
    (∀ payload hdr body, check_header payload hdr = some body ↔
        ∃ sizeStr, payload = hdr ++ sizeStr ++ 0 :: body ∧ (0 : Nat) ∉ sizeStr ∧
          parse_decimal sizeStr = some body.length) := by
  have hsound : ∀ s n, parse_decimal s = some n →
      (∀ c ∈ s, 48 ≤ c ∧ c ≤ 57) ∧ n = decValue s ∧ n ≤ USIZE_MAX := by
    intro s n h
    exact parseDecimalLoop_sound s 0 n (by simp [USIZE_MAX]) h
  refine ⟨hsound, fun s h => parseDecimalLoop_nondigit s 0 h, ?_,
    fun payload hdr body => check_header_eq_some payload hdr body⟩
  intro s hbig
  cases h : parse_decimal s with
  | none => rfl
  | some n =>
    obtain ⟨_, hval, hbound⟩ := hsound s n h
    omega

theorem c3_check_header_witness :
    parse_decimal (ascii "123") = some 123 ∧
    (∀ c ∈ ascii "123", 48 ≤ c ∧ c ≤ 57) ∧ 123 ≤ USIZE_MAX := by
  have h := c3_check_header.1 (ascii "123") 123 (by decide)
  exact ⟨by decide, h.1, h.2.2⟩

/-- C10: a payload consisting of the expected type literal followed by a
single NUL and nothing else passes `check_header` with an empty body; the
empty digit string parses as zero. -/
theorem c10_empty_size_field (t : List Nat) :
    check_header (t ++ [0]) t = some [] ∧ parse_decimal [] = some 0 := by
  constructor
  · simp only [check_header, Option.bind_eq_bind, stripLead_append_self, Option.some_bind]
    rfl
  · rfl

theorem c10_empty_size_field_witness :
    check_header (ascii "commit " ++ [0]) (ascii "commit ") = some [] ∧
    parse_decimal [] = some 0 :=
  c10_empty_size_field (ascii "commit ")

/-! ### UTF-8 validity -/

/-- Body of one step of UTF-8 validation, for a first byte `b` and the
bytes after it.  The ranges are those accepted by Rust\'s
`String::from_utf8` (RFC 3629: shortest forms only, no surrogates,
nothing above U+10FFFF). -/
def utf8DecodeCharAt (b : Nat) (rest : List Nat) : Option (List Nat) :=
  if b ≤ 127 then some rest
  else if 194 ≤ b ∧ b ≤ 223 then
    match rest with
    | c1 :: rest2 => if 128 ≤ c1 ∧ c1 ≤ 191 then some rest2 else none
    | [] => none
  else if b = 224 then
    match rest with
    | c1 :: c2 :: rest2 =>
      if (160 ≤ c1 ∧ c1 ≤ 191) ∧ (128 ≤ c2 ∧ c2 ≤ 191) then some rest2 else none
    | _ => none
  else if 225 ≤ b ∧ b ≤ 236 then
    match rest with
    | c1 :: c2 :: rest2 =>
      if (128 ≤ c1 ∧ c1 ≤ 191) ∧ (128 ≤ c2 ∧ c2 ≤ 191) then some rest2 else none
    | _ => none
  else if b = 237 then
    match rest with
    | c1 :: c2 :: rest2 =>
      if (128 ≤ c1 ∧ c1 ≤ 159) ∧ (128 ≤ c2 ∧ c2 ≤ 191) then some rest2 else none
    | _ => none
  else if 238 ≤ b ∧ b ≤ 239 then
    match rest with
    | c1 :: c2 :: rest2 =>
      if (128 ≤ c1 ∧ c1 ≤ 191) ∧ (128 ≤ c2 ∧ c2 ≤ 191) then some rest2 else none
    | _ => none
  else if b = 240 then
    match rest with
    | c1 :: c2 :: c3 :: rest2 =>
      if (144 ≤ c1 ∧ c1 ≤ 191) ∧ (128 ≤ c2 ∧ c2 ≤ 191) ∧ (128 ≤ c3 ∧ c3 ≤ 191) then
        some rest2
      else none
    | _ => none
  else if 241 ≤ b ∧ b ≤ 243 then
    match rest with
    | c1 :: c2 :: c3 :: rest2 =>
      if (128 ≤ c1 ∧ c1 ≤ 191) ∧ (128 ≤ c2 ∧ c2 ≤ 191) ∧ (128 ≤ c3 ∧ c3 ≤ 191) then
        some rest2
      else none
    | _ => none
  else if b = 244 then
    match rest with
    | c1 :: c2 :: c3 :: rest2 =>
      if (128 ≤ c1 ∧ c1 ≤ 143) ∧ (128 ≤ c2 ∧ c2 ≤ 191) ∧ (128 ≤ c3 ∧ c3 ≤ 191) then
        some rest2
      else none
    | _ => none
  else none

/-- One step of UTF-8 validation: consume a single well-formed encoded
character from the front, returning the remaining bytes, or fail. -/
def utf8DecodeChar : List Nat → Option (List Nat)
  | [] => none
  | b :: rest => utf8DecodeCharAt b rest

set_option maxHeartbeats 1000000 in
theorem utf8DecodeCharAt_le : ∀ (b : Nat) (rest r : List Nat),
    utf8DecodeCharAt b rest = some r → r.length ≤ rest.length := by
  intro b rest r h
  unfold utf8DecodeCharAt at h
  repeat' split at h
  all_goals try exact Option.noConfusion h
  all_goals rw [← Option.some.inj h]
  all_goals try simp only [List.length_cons]
  all_goals omega

theorem utf8DecodeChar_shrink : ∀ (s r : List Nat),
    utf8DecodeChar s = some r → r.length < s.length := by
  intro s r h
  cases s with
  | nil => exact absurd h (by simp [utf8DecodeChar])
  | cons b rest =>
    have := utf8DecodeCharAt_le b rest r h
    simp only [List.length_cons]
    omega

/-- Fuelled validation loop: the fuel only bounds the number of decoded
characters, and one list byte always buys at least one character, so
`fuel = s.length` never runs out. -/
def validUtf8Loop : Nat → List Nat → Bool
  | _, [] => true
  | 0, _ :: _ => false
  | fuel + 1, b :: rest =>
    match utf8DecodeChar (b :: rest) with
    | none => false
    | some r => validUtf8Loop fuel r

/-- Validity of a byte sequence as UTF-8: exactly the condition under
which Rust's `String::from_utf8` succeeds. -/
def validUtf8 (s : List Nat) : Bool := validUtf8Loop s.length s

theorem validUtf8Loop_fuel : ∀ (f1 : Nat), ∀ (f2 : Nat) (s : List Nat), s.length ≤ f1 →
    s.length ≤ f2 → validUtf8Loop f1 s = validUtf8Loop f2 s := by
  intro f1
  induction f1 with
  | zero =>
    intro f2 s h1 _
    rw [List.length_eq_zero.mp (Nat.le_zero.mp h1)]
    cases f2 <;> rfl
  | succ f1 ih =>
    intro f2 s h1 h2
    cases s with
    | nil => cases f2 <;> rfl
    | cons b rest =>
      cases f2 with
      | zero => simp at h2
      | succ f2 =>
        show (match utf8DecodeChar (b :: rest) with
          | none => false
          | some r => validUtf8Loop f1 r) = (match utf8DecodeChar (b :: rest) with
          | none => false
          | some r => validUtf8Loop f2 r)
        cases hdec : utf8DecodeChar (b :: rest) with
        | none => rfl
        | some r =>
          have hr := utf8DecodeChar_shrink _ _ hdec
          simp only [List.length_cons] at hr h1 h2
          exact ih f2 r (by omega) (by omega)

theorem validUtf8_cons_decode {b : Nat} {rest r : List Nat}
    (hdec : utf8DecodeChar (b :: rest) = some r) :
    validUtf8 (b :: rest) = validUtf8 r := by
  unfold validUtf8
  have hr := utf8DecodeChar_shrink _ _ hdec
  simp only [List.length_cons] at hr
  show validUtf8Loop (rest.length + 1) (b :: rest) = _
  rw [show validUtf8Loop (rest.length + 1) (b :: rest) = (match utf8DecodeChar (b :: rest) with
    | none => false
    | some r => validUtf8Loop rest.length r) from rfl, hdec]
  exact validUtf8Loop_fuel rest.length r.length r (by omega) (by omega)

theorem validUtf8_of_ascii : ∀ s : List Nat, (∀ c ∈ s, c ≤ 127) → validUtf8 s = true
  | [], _ => rfl
  | b :: rest, h => by
    have hb : b ≤ 127 := h b (by simp)
    have hdec : utf8DecodeChar (b :: rest) = some rest := by
      show utf8DecodeCharAt b rest = some rest
      unfold utf8DecodeCharAt
      rw [if_pos hb]
    rw [validUtf8_cons_decode hdec]
    exact validUtf8_of_ascii rest (fun c hc => h c (by simp [hc]))

/-! ### Commit parsing (src/ParseCommit/src/main.rs): `parse_commit` and
its `parent` loop.  The Rust `String` fields hold the same bytes the
parser checked with `String::from_utf8`, so they stay byte lists here. -/

/-- Result of `parse_commit` (struct `Commit` in the source). -/
structure Commit where
  tree : List Nat
  parents : List (List Nat)
  author : List Nat
  committer : List Nat
  message : List Nat
deriving DecidableEq, Repr

/-- Header literal `COMMIT_HEADER` = `b"commit "`. -/
def COMMIT_HEADER : List Nat := ascii "commit "

/-- Line literal `TREE_LINE_PREFIX` = `b"tree "`. -/
def TREE_LINE : List Nat := ascii "tree "

/-- Line literal `PARENT_LINE_PREFIX` = `b"parent "`. -/
def PARENT_LINE : List Nat := ascii "parent "

/-- Line literal `AUTHOR_LINE_PREFIX` = `b"author "`. -/
def AUTHOR_LINE : List Nat := ascii "author "

/-- Line literal `COMMITTER_LINE_PREFIX` = `b"committer "`. -/
def COMMITTER_LINE : List Nat := ascii "committer "

/-- Embedding of the `while let` loop of `parse_commit` that collects the
`parent ` lines in file order: while the remaining bytes start with the
parent literal, split off the line, decode its hash, and continue; the
loop ends at the first non-`parent ` line, returning the parents and the
unconsumed bytes. -/
def parseParentsLoop (fuel : Nat) (object : List Nat) :
    Option (List (List Nat) × List Nat) :=
  match stripLead object PARENT_LINE with
  | none => some ([], object)
  | some rest =>
    match fuel with
    | 0 => none
    | fuel + 1 =>
      match split_once rest 10 with
      | none => none
      | some (phex, rest2) =>
        match hex_to_hash phex with
        | none => none
        | some p =>
          match parseParentsLoop fuel rest2 with
          | none => none
          | some (ps, o) => some (p :: ps, o)

/-- The loop above with enough fuel for any input: every iteration strips
the 7-byte `parent ` literal plus at least a newline, so `object.length`
iterations never run out. -/
def parse_parents (object : List Nat) : Option (List (List Nat) × List Nat) :=
  parseParentsLoop object.length object

/-- Embedding of `parse_commit`: header check, `tree ` line, `parent `
lines, `author ` line, `committer ` line, blank line, message; each
`String::from_utf8(...).ok()?` is a `validUtf8` test. -/
def parse_commit (object : List Nat) : Option Commit :=
  match check_header object COMMIT_HEADER with
  | none => none
  | some object =>
  match stripLead object TREE_LINE with
  | none => none
  | some object =>
  match split_once object 10 with
  | none => none
  | some (treeHex, object) =>
  match hex_to_hash treeHex with
  | none => none
  | some tree =>
  match parse_parents object with
  | none => none
  | some (parents, object) =>
  match stripLead object AUTHOR_LINE with
  | none => none
  | some object =>
  match split_once object 10 with
  | none => none
  | some (author, object) =>
  if validUtf8 author then
    match stripLead object COMMITTER_LINE with
    | none => none
    | some object =>
    match split_once object 10 with
    | none => none
    | some (committer, object) =>
    if validUtf8 committer then
      match stripLead object [10] with
      | none => none
      | some message =>
      if validUtf8 message then
        some ⟨tree, parents, author, committer, message⟩
      else none
    else none
  else none

/-- Byte encoding of a sequence of `parent ` lines, one per hash, in file
order; used to state what the parent loop consumes. -/
def parentLinesBytes : List (List Nat) → List Nat
  | [] => []
  | hx :: rest => PARENT_LINE ++ (hx ++ 10 :: parentLinesBytes rest)

theorem hex_to_hash_not_mem {s h : List Nat} (hh : hex_to_hash s = some h) {c : Nat}
    (hc : isLowerHex c = false) : c ∉ s := by
  intro hmem
  simp only [hex_to_hash, Option.bind_eq_bind, Option.bind_eq_some] at hh
  obtain ⟨bytes, hbytes, _⟩ := hh
  have hmem2 := (hexPairs_sound s bytes hbytes).2 c hmem
  rw [hc] at hmem2
  exact Bool.noConfusion hmem2

theorem hex_to_hash_no_newline {s h : List Nat} (hh : hex_to_hash s = some h) :
    (10 : Nat) ∉ s :=
  hex_to_hash_not_mem hh (by decide)

theorem parseParentsLoop_stop {fuel : Nat} {object : List Nat}
    (h : stripLead object PARENT_LINE = none) :
    parseParentsLoop fuel object = some ([], object) := by
  unfold parseParentsLoop
  rw [h]

theorem parseParentsLoop_zero {object rest : List Nat}
    (h : stripLead object PARENT_LINE = some rest) :
    parseParentsLoop 0 object = none := by
  unfold parseParentsLoop
  rw [h]

theorem parseParentsLoop_succ {fuel : Nat} {object rest : List Nat}
    (h : stripLead object PARENT_LINE = some rest) :
    parseParentsLoop (fuel + 1) object =
      (match split_once rest 10 with
       | none => none
       | some (phex, rest2) =>
         match hex_to_hash phex with
         | none => none
         | some p =>
           match parseParentsLoop fuel rest2 with
           | none => none
           | some (ps, o) => some (p :: ps, o)) := by
  conv_lhs => unfold parseParentsLoop
  rw [h]

/-- What the parent loop accepts: a run of `parent ` lines whose hex
fields decode to the returned hashes in order, followed by bytes that do
not start with another `parent ` literal. -/
def ParentRun (object : List Nat) (ps : List (List Nat)) (o : List Nat) : Prop :=
  ∃ hexes, List.Forall₂ (fun hx p => hex_to_hash hx = some p) hexes ps ∧
    object = parentLinesBytes hexes ++ o ∧ stripLead o PARENT_LINE = none

theorem parseParentsLoop_sound : ∀ (fuel : Nat) (object : List Nat)
    (ps : List (List Nat)) (o : List Nat),
    parseParentsLoop fuel object = some (ps, o) → ParentRun object ps o := by
  intro fuel
  induction fuel with
  | zero =>
    intro object ps o h
    cases hstrip : stripLead object PARENT_LINE with
    | none =>
      rw [parseParentsLoop_stop hstrip] at h
      have hps : ([] : List (List Nat)) = ps := congrArg Prod.fst (Option.some.inj h)
      have ho : object = o := congrArg Prod.snd (Option.some.inj h)
      exact ⟨[], hps ▸ List.Forall₂.nil, by simp [parentLinesBytes, ho], ho ▸ hstrip⟩
    | some rest =>
      rw [parseParentsLoop_zero hstrip] at h
      exact Option.noConfusion h
  | succ fuel ih =>
    intro object ps o h
    cases hstrip : stripLead object PARENT_LINE with
    | none =>
      rw [parseParentsLoop_stop hstrip] at h
      have hps : ([] : List (List Nat)) = ps := congrArg Prod.fst (Option.some.inj h)
      have ho : object = o := congrArg Prod.snd (Option.some.inj h)
      exact ⟨[], hps ▸ List.Forall₂.nil, by simp [parentLinesBytes, ho], ho ▸ hstrip⟩
    | some rest =>
      rw [parseParentsLoop_succ hstrip] at h
      cases hsplit : split_once rest 10 with
      | none => rw [hsplit] at h; exact Option.noConfusion h
      | some pr =>
      obtain ⟨phex, rest2⟩ := pr
      simp only [hsplit] at h
      cases hhex : hex_to_hash phex with
      | none => rw [hhex] at h; exact Option.noConfusion h
      | some p =>
      simp only [hhex] at h
      cases hrec : parseParentsLoop fuel rest2 with
      | none => rw [hrec] at h; exact Option.noConfusion h
      | some pso =>
      obtain ⟨ps2, o2⟩ := pso
      simp only [hrec] at h
      have hps : p :: ps2 = ps := congrArg Prod.fst (Option.some.inj h)
      have ho : o2 = o := congrArg Prod.snd (Option.some.inj h)
      obtain ⟨hexes, hfa, heq, hstop⟩ := ih rest2 ps2 o2 hrec
      refine ⟨phex :: hexes, ?_, ?_, ho ▸ hstop⟩
      · rw [← hps]
        exact List.Forall₂.cons hhex hfa
      · obtain ⟨h10, hrest⟩ := (split_once_eq_some 10 rest phex rest2).mp hsplit
        rw [(stripLead_eq_some object PARENT_LINE rest).mp hstrip, hrest, heq, ← ho]
        simp [parentLinesBytes]

theorem parseParentsLoop_complete :
    ∀ (hexes ps : List (List Nat)) (o : List Nat) (fuel : Nat),
    List.Forall₂ (fun hx p => hex_to_hash hx = some p) hexes ps →
    stripLead o PARENT_LINE = none →
    hexes.length ≤ fuel →
    parseParentsLoop fuel (parentLinesBytes hexes ++ o) = some (ps, o) := by
  intro hexes
  induction hexes with
  | nil =>
    intro ps o fuel hfa hstop _
    rw [List.forall₂_nil_left_iff] at hfa
    subst hfa
    show parseParentsLoop fuel o = some ([], o)
    exact parseParentsLoop_stop hstop
  | cons hx t iht =>
    intro ps o fuel hfa hstop hlen
    rw [List.forall₂_cons_left_iff] at hfa
    obtain ⟨p, ps2, hhex, hfa2, hps⟩ := hfa
    subst hps
    cases fuel with
    | zero => simp at hlen
    | succ fuel =>
      have hobj : parentLinesBytes (hx :: t) ++ o =
          PARENT_LINE ++ (hx ++ 10 :: (parentLinesBytes t ++ o)) := by
        simp [parentLinesBytes]
      rw [hobj, parseParentsLoop_succ (stripLead_append_self PARENT_LINE _)]
      rw [(split_once_eq_some 10 (hx ++ 10 :: (parentLinesBytes t ++ o)) hx
        (parentLinesBytes t ++ o)).mpr ⟨hex_to_hash_no_newline hhex, rfl⟩]
      simp only [hhex]
      rw [iht ps2 o fuel hfa2 hstop (by simp at hlen; omega)]

/-- Characterization of the parent loop of `parse_commit`. -/
theorem parse_parents_eq_some (object : List Nat) (ps : List (List Nat)) (o : List Nat) :
    parse_parents object = some (ps, o) ↔ ParentRun object ps o := by
  constructor
  · exact parseParentsLoop_sound object.length object ps o
  · rintro ⟨hexes, hfa, heq, hstop⟩
    have hlen : hexes.length ≤ object.length := by
      subst heq
      rw [List.length_append]
      have : hexes.length ≤ (parentLinesBytes hexes).length := by
        clear hfa
        induction hexes with
        | nil => simp [parentLinesBytes]
        | cons hx t iht =>
          simp only [parentLinesBytes, List.length_cons, List.length_append]
          omega
      omega
    subst heq
    exact parseParentsLoop_complete hexes ps o _ hfa hstop hlen

theorem stripLead_cons_ne {a b : Nat} (h : a ≠ b) (o p : List Nat) :
    stripLead (a :: o) (b :: p) = none := by
  unfold stripLead
  rw [if_neg h]

theorem stripLead_author_parent (t : List Nat) :
    stripLead (AUTHOR_LINE ++ t) PARENT_LINE = none := by
  have hA : AUTHOR_LINE = 97 :: ascii "uthor " := by decide
  have hP : PARENT_LINE = 112 :: ascii "arent " := by decide
  rw [hA, hP, List.cons_append]
  exact stripLead_cons_ne (by decide) _ _

/-- The structure the C2 claim describes for a commit payload (the claim
taken literally, with no condition on the bytes of the author, committer
or message): after the header check, the body is one `tree ` line with a
decodable hex hash, zero or more `parent ` lines whose hashes become the
parents in file order, one `author ` line, one `committer ` line, a blank
line, and the message as all remaining bytes. -/
def CommitSpec (payload : List Nat) (c : Commit) : Prop :=
  ∃ body treeHex hexes,
    check_header payload COMMIT_HEADER = some body ∧
    body = TREE_LINE ++ (treeHex ++ 10 :: (parentLinesBytes hexes ++
      (AUTHOR_LINE ++ (c.author ++ 10 :: (COMMITTER_LINE ++
        (c.committer ++ 10 :: (10 :: c.message))))))) ∧
    hex_to_hash treeHex = some c.tree ∧
    List.Forall₂ (fun hx p => hex_to_hash hx = some p) hexes c.parents ∧
    (10 : Nat) ∉ c.author ∧ (10 : Nat) ∉ c.committer

/-- The amended structure: the same, plus UTF-8 validity of the author,
committer and message bytes, which `parse_commit` checks through
`String::from_utf8`. -/
def CommitSpecUtf8 (payload : List Nat) (c : Commit) : Prop :=
  CommitSpec payload c ∧ validUtf8 c.author = true ∧ validUtf8 c.committer = true ∧
    validUtf8 c.message = true

/-- C2 (amended): `parse_commit` succeeds exactly on the structure the
claim describes, with the additional requirement that the author,
committer and message bytes are valid UTF-8; the parent list preserves
the file order of the `parent ` lines. -/
theorem c2_parse_commit_amended (payload : List Nat) (c : Commit) :
    parse_commit payload = some c ↔ CommitSpecUtf8 payload c := by
  obtain ⟨ct, cp, ca, cc, cm⟩ := c
  constructor
  · intro h
    unfold parse_commit at h
    cases hch : check_header payload COMMIT_HEADER with
    | none => rw [hch] at h; exact Option.noConfusion h
    | some body =>
    simp only [hch] at h
    cases hstree : stripLead body TREE_LINE with
    | none => rw [hstree] at h; exact Option.noConfusion h
    | some o1 =>
    simp only [hstree] at h
    cases hsp1 : split_once o1 10 with
    | none => rw [hsp1] at h; exact Option.noConfusion h
    | some pr1 =>
    obtain ⟨treeHex, o2⟩ := pr1
    simp only [hsp1] at h
    cases hhex : hex_to_hash treeHex with
    | none => rw [hhex] at h; exact Option.noConfusion h
    | some tree =>
    simp only [hhex] at h
    cases hpar : parse_parents o2 with
    | none => rw [hpar] at h; exact Option.noConfusion h
    | some pr2 =>
    obtain ⟨parents, o3⟩ := pr2
    simp only [hpar] at h
    cases hsauth : stripLead o3 AUTHOR_LINE with
    | none => rw [hsauth] at h; exact Option.noConfusion h
    | some o4 =>
    simp only [hsauth] at h
    cases hsp2 : split_once o4 10 with
    | none => rw [hsp2] at h; exact Option.noConfusion h
    | some pr3 =>
    obtain ⟨author, o5⟩ := pr3
    simp only [hsp2] at h
    cases hu1 : validUtf8 author with
    | false => rw [if_neg (by simp [hu1])] at h; exact Option.noConfusion h
    | true =>
    rw [if_pos hu1] at h
    cases hscomm : stripLead o5 COMMITTER_LINE with
    | none => rw [hscomm] at h; exact Option.noConfusion h
    | some o6 =>
    simp only [hscomm] at h
    cases hsp3 : split_once o6 10 with
    | none => rw [hsp3] at h; exact Option.noConfusion h
    | some pr4 =>
    obtain ⟨committer, o7⟩ := pr4
    simp only [hsp3] at h
    cases hu2 : validUtf8 committer with
    | false => rw [if_neg (by simp [hu2])] at h; exact Option.noConfusion h
    | true =>
    rw [if_pos hu2] at h
    cases hsmsg : stripLead o7 [10] with
    | none => rw [hsmsg] at h; exact Option.noConfusion h
    | some message =>
    simp only [hsmsg] at h
    cases hu3 : validUtf8 message with
    | false => rw [if_neg (by simp [hu3])] at h; exact Option.noConfusion h
    | true =>
    rw [if_pos hu3] at h
    have hc := Option.some.inj h
    rw [← hc]
    obtain ⟨hexes, hfa, ho2, _⟩ := (parse_parents_eq_some o2 parents o3).mp hpar
    obtain ⟨h10t, ho1⟩ := (split_once_eq_some 10 o1 treeHex o2).mp hsp1
    obtain ⟨h10a, ho4⟩ := (split_once_eq_some 10 o4 author o5).mp hsp2
    obtain ⟨h10c, ho6⟩ := (split_once_eq_some 10 o6 committer o7).mp hsp3
    refine ⟨⟨body, treeHex, hexes, hch, ?_, hhex, hfa, h10a, h10c⟩, hu1, hu2, hu3⟩
    rw [(stripLead_eq_some body TREE_LINE o1).mp hstree, ho1, ho2,
      (stripLead_eq_some o3 AUTHOR_LINE o4).mp hsauth, ho4,
      (stripLead_eq_some o5 COMMITTER_LINE o6).mp hscomm, ho6,
      (stripLead_eq_some o7 [10] message).mp hsmsg]
    simp
  · rintro ⟨⟨body, treeHex, hexes, hch, hbody, hhex, hfa, h10a, h10c⟩, hu1, hu2, hu3⟩
    unfold parse_commit
    simp only [hch, hbody]
    rw [show TREE_LINE ++ (treeHex ++ 10 :: (parentLinesBytes hexes ++
      (AUTHOR_LINE ++ (ca ++ 10 :: (COMMITTER_LINE ++
        (cc ++ 10 :: (10 :: cm))))))) = TREE_LINE ++ (treeHex ++ 10 :: (parentLinesBytes hexes ++
      (AUTHOR_LINE ++ (ca ++ 10 :: (COMMITTER_LINE ++
        (cc ++ 10 :: (10 :: cm))))))) from rfl, stripLead_append_self]
    simp only
    rw [(split_once_eq_some 10 _ treeHex (parentLinesBytes hexes ++
      (AUTHOR_LINE ++ (ca ++ 10 :: (COMMITTER_LINE ++
        (cc ++ 10 :: (10 :: cm))))))).mpr ⟨hex_to_hash_no_newline hhex, rfl⟩]
    simp only [hhex]
    rw [(parse_parents_eq_some _ cp _).mpr
      ⟨hexes, hfa, rfl, stripLead_author_parent _⟩]
    simp only [stripLead_append_self]
    rw [(split_once_eq_some 10 _ ca (COMMITTER_LINE ++
      (cc ++ 10 :: (10 :: cm)))).mpr ⟨h10a, rfl⟩]
    simp only
    rw [if_pos hu1, stripLead_append_self]
    simp only
    rw [(split_once_eq_some 10 _ cc (10 :: cm)).mpr ⟨h10c, rfl⟩]
    simp only
    rw [if_pos hu2, show (10 : Nat) :: cm = [10] ++ cm from rfl, stripLead_append_self]
    simp only
    rw [if_pos hu3]

theorem c2_parse_commit_amended_witness :
    parse_commit (ascii "commit 69" ++ 0 :: (ascii "tree " ++ List.replicate 40 97 ++
        [10] ++ ascii "author x" ++ [10] ++ ascii "committer x" ++ [10] ++ [10] ++ [109])) =
      some ⟨List.replicate 20 170, [], ascii "x", ascii "x", [109]⟩ :=
  (c2_parse_commit_amended _ _).mpr
    ⟨⟨ascii "tree " ++ List.replicate 40 97 ++ [10] ++ ascii "author x" ++ [10] ++
        ascii "committer x" ++ [10] ++ [10] ++ [109],
      List.replicate 40 97, [], by decide, by decide, by decide,
      List.Forall₂.nil, by decide, by decide⟩, by decide, by decide, by decide⟩

/-- Body of the C2 counterexample: structurally a perfect commit body,
but the single message byte `0xFF` is not valid UTF-8. -/
def badC2Body : List Nat :=
  ascii "tree " ++ List.replicate 40 97 ++ [10] ++ ascii "author x" ++ [10] ++
    ascii "committer x" ++ [10] ++ [10] ++ [255]

/-- Payload of the C2 counterexample. -/
def badC2Payload : List Nat := ascii "commit 69" ++ 0 :: badC2Body

/-- C2 counterexample: a payload with exactly the structure the claim
describes (header check passes, one tree line, no parent lines, one
author line, one committer line, blank line, message = the remaining
byte `0xFF`), on which `parse_commit` nevertheless fails, because the
message is not valid UTF-8 and `String::from_utf8` rejects it. -/
theorem c2_counterexample :
    CommitSpec badC2Payload ⟨List.replicate 20 170, [], ascii "x", ascii "x", [255]⟩ ∧
    parse_commit badC2Payload = none := by
  constructor
  · exact ⟨badC2Body, List.replicate 40 97, [], by decide, by decide, by decide,
      List.Forall₂.nil, by decide, by decide⟩
  · decide

/-! ### Tree parsing (src/ParseTree/src/main.rs): `parse_tree`. -/

/-- Entry mode (enum `Mode` in the source). -/
inductive Mode where
  | Directory : Mode
  | File : Mode
  | SymbolicLink : Mode
deriving DecidableEq, Repr

/-- One tree entry (struct `TreeEntry` in the source; `name` keeps the
UTF-8 bytes of the Rust `String`). -/
structure TreeEntry where
  mode : Mode
  name : List Nat
  hash : List Nat
deriving DecidableEq, Repr

/-- Header literal `TREE_HEADER` = `b"tree "`. -/
def TREE_HEADER : List Nat := ascii "tree "

/-- Embedding of the `match mode` of `parse_tree`: the four known mode
strings, everything else fails. -/
def parseMode (m : List Nat) : Option Mode :=
  if m = ascii "40000" then some Mode.Directory
  else if m = ascii "100644" then some Mode.File
  else if m = ascii "100755" then some Mode.File
  else if m = ascii "120000" then some Mode.SymbolicLink
  else none

/-- Embedding of the `while !object.is_empty()` loop of `parse_tree`:
mode up to the space, name up to the NUL (checked as UTF-8), then 20 hash
bytes, repeated with no separators.  The fuel only bounds the number of
records; one record always consumes at least two bytes. -/
def parseTreeEntriesLoop (fuel : Nat) (object : List Nat) : Option (List TreeEntry) :=
  if object.isEmpty then some []
  else
    match fuel with
    | 0 => none
    | fuel + 1 =>
      match split_once object 32 with
      | none => none
      | some (modeStr, rest1) =>
        match parseMode modeStr with
        | none => none
        | some mode =>
          match split_once rest1 0 with
          | none => none
          | some (nameStr, rest2) =>
            if validUtf8 nameStr then
              if 20 ≤ rest2.length then
                match parseTreeEntriesLoop fuel (rest2.drop 20) with
                | none => none
                | some es => some (⟨mode, nameStr, rest2.take 20⟩ :: es)
              else none
            else none

/-- The record loop with enough fuel for any input. -/
def parseTreeEntries (body : List Nat) : Option (List TreeEntry) :=
  parseTreeEntriesLoop body.length body

/-- Embedding of `parse_tree`: the literal empty byte sequence is an
empty tree without a header check; otherwise the header is checked and
the records are parsed. -/
def parse_tree (object : List Nat) : Option (List TreeEntry) :=
  if object.isEmpty then some []
  else
    match check_header object TREE_HEADER with
    | none => none
    | some body => parseTreeEntries body

/-- Raw bytes of one tree record before interpretation. -/
structure RawTreeRec where
  modeStr : List Nat
  name : List Nat
  hash : List Nat

/-- Byte encoding of one record: mode, space, name, NUL, hash. -/
def encodeTreeRec (r : RawTreeRec) : List Nat :=
  r.modeStr ++ 32 :: (r.name ++ 0 :: r.hash)

/-- Byte encoding of a record sequence: flat, no separators. -/
def encodeTreeRecs : List RawTreeRec → List Nat
  | [] => []
  | r :: rs => encodeTreeRec r ++ encodeTreeRecs rs

/-- A record the parser accepts, and the entry it produces. -/
def GoodTreeRec (r : RawTreeRec) (e : TreeEntry) : Prop :=
  parseMode r.modeStr = some e.mode ∧ r.name = e.name ∧ r.hash = e.hash ∧
    (0 : Nat) ∉ r.name ∧ validUtf8 r.name = true ∧ r.hash.length = 20

/-- A tree body is a flat sequence of good records producing the entries
in order. -/
def TreeBody (object : List Nat) (es : List TreeEntry) : Prop :=
  ∃ recs, object = encodeTreeRecs recs ∧ List.Forall₂ GoodTreeRec recs es

theorem parseMode_no_space {m : List Nat} {md : Mode} (h : parseMode m = some md) :
    (32 : Nat) ∉ m := by
  unfold parseMode at h
  split at h
  · rename_i he; rw [he]; decide
  · split at h
    · rename_i he; rw [he]; decide
    · split at h
      · rename_i he; rw [he]; decide
      · split at h
        · rename_i he; rw [he]; decide
        · exact Option.noConfusion h

theorem parseTreeEntriesLoop_nil (fuel : Nat) : parseTreeEntriesLoop fuel [] = some [] := by
  unfold parseTreeEntriesLoop
  rfl

theorem parseTreeEntriesLoop_step (fuel : Nat) (object : List Nat)
    (hne : object.isEmpty = false) :
    parseTreeEntriesLoop (fuel + 1) object =
      (match split_once object 32 with
       | none => none
       | some (modeStr, rest1) =>
         match parseMode modeStr with
         | none => none
         | some mode =>
           match split_once rest1 0 with
           | none => none
           | some (nameStr, rest2) =>
             if validUtf8 nameStr then
               if 20 ≤ rest2.length then
                 match parseTreeEntriesLoop fuel (rest2.drop 20) with
                 | none => none
                 | some es => some (⟨mode, nameStr, rest2.take 20⟩ :: es)
               else none
             else none) := by
  conv_lhs => unfold parseTreeEntriesLoop
  rw [hne]
  exact if_neg (by simp)

theorem parseTreeEntriesLoop_sound : ∀ (fuel : Nat) (object : List Nat)
    (es : List TreeEntry), parseTreeEntriesLoop fuel object = some es →
    TreeBody object es := by
  intro fuel
  induction fuel with
  | zero =>
    intro object es h
    cases object with
    | nil =>
      rw [parseTreeEntriesLoop_nil] at h
      exact ⟨[], rfl, (Option.some.inj h) ▸ List.Forall₂.nil⟩
    | cons b rest =>
      rw [show parseTreeEntriesLoop 0 (b :: rest) = none from rfl] at h
      exact Option.noConfusion h
  | succ fuel ih =>
    intro object es h
    cases hobj : object with
    | nil =>
      rw [hobj, parseTreeEntriesLoop_nil] at h
      exact ⟨[], rfl, (Option.some.inj h) ▸ List.Forall₂.nil⟩
    | cons b rest =>
    rw [hobj, parseTreeEntriesLoop_step fuel (b :: rest) rfl] at h
    cases hsp1 : split_once (b :: rest) 32 with
    | none => rw [hsp1] at h; exact Option.noConfusion h
    | some pr1 =>
    obtain ⟨modeStr, rest1⟩ := pr1
    simp only [hsp1] at h
    cases hpm : parseMode modeStr with
    | none => rw [hpm] at h; exact Option.noConfusion h
    | some mode =>
    simp only [hpm] at h
    cases hsp2 : split_once rest1 0 with
    | none => rw [hsp2] at h; exact Option.noConfusion h
    | some pr2 =>
    obtain ⟨nameStr, rest2⟩ := pr2
    simp only [hsp2] at h
    cases hu : validUtf8 nameStr with
    | false => rw [if_neg (by simp [hu])] at h; exact Option.noConfusion h
    | true =>
    rw [if_pos hu] at h
    by_cases hlen : 20 ≤ rest2.length
    case neg => rw [if_neg hlen] at h; exact Option.noConfusion h
    rw [if_pos hlen] at h
    cases hrec : parseTreeEntriesLoop fuel (rest2.drop 20) with
    | none => rw [hrec] at h; exact Option.noConfusion h
    | some es2 =>
    simp only [hrec] at h
    obtain ⟨recs, henc, hfa⟩ := ih (rest2.drop 20) es2 hrec
    obtain ⟨h32, hb⟩ := (split_once_eq_some 32 (b :: rest) modeStr rest1).mp hsp1
    obtain ⟨h0, hr1⟩ := (split_once_eq_some 0 rest1 nameStr rest2).mp hsp2
    refine ⟨⟨modeStr, nameStr, rest2.take 20⟩ :: recs, ?_, ?_⟩
    · show b :: rest = encodeTreeRec ⟨modeStr, nameStr, rest2.take 20⟩ ++ encodeTreeRecs recs
      rw [← henc, hb, hr1]
      show modeStr ++ 32 :: (nameStr ++ 0 :: rest2) =
        (modeStr ++ 32 :: (nameStr ++ 0 :: rest2.take 20)) ++ rest2.drop 20
      rw [show (modeStr ++ 32 :: (nameStr ++ 0 :: rest2.take 20)) ++ rest2.drop 20 =
          modeStr ++ 32 :: (nameStr ++ 0 :: (rest2.take 20 ++ rest2.drop 20)) from by simp,
        List.take_append_drop]
    · rw [← Option.some.inj h]
      refine List.Forall₂.cons ?_ hfa
      exact ⟨hpm, rfl, rfl, h0, hu, by rw [List.length_take]; omega⟩

theorem encodeTreeRecs_length_ge : ∀ recs : List RawTreeRec,
    recs.length ≤ (encodeTreeRecs recs).length
  | [] => by simp [encodeTreeRecs]
  | r :: rs => by
    have := encodeTreeRecs_length_ge rs
    simp only [encodeTreeRecs, List.length_cons, List.length_append, encodeTreeRec]
    omega

theorem parseTreeEntriesLoop_complete :
    ∀ (recs : List RawTreeRec) (es : List TreeEntry) (fuel : Nat),
    List.Forall₂ GoodTreeRec recs es → recs.length ≤ fuel →
    parseTreeEntriesLoop fuel (encodeTreeRecs recs) = some es := by
  intro recs
  induction recs with
  | nil =>
    intro es fuel hfa _
    rw [List.forall₂_nil_left_iff] at hfa
    subst hfa
    exact parseTreeEntriesLoop_nil fuel
  | cons r rs ih =>
    intro es fuel hfa hlen
    rw [List.forall₂_cons_left_iff] at hfa
    obtain ⟨e, es2, hgood, hfa2, hes⟩ := hfa
    subst hes
    obtain ⟨hpm, hname, hhash, h0, hu, h20⟩ := hgood
    cases fuel with
    | zero => simp at hlen
    | succ fuel =>
    rw [show encodeTreeRecs (r :: rs) =
      r.modeStr ++ 32 :: (r.name ++ 0 :: (r.hash ++ encodeTreeRecs rs)) from by
        simp [encodeTreeRecs, encodeTreeRec]]
    rw [parseTreeEntriesLoop_step fuel _ (by
      cases hm : r.modeStr with
      | nil => rfl
      | cons a t => rfl)]
    rw [(split_once_eq_some 32 _ r.modeStr (r.name ++ 0 :: (r.hash ++ encodeTreeRecs rs))).mpr
      ⟨parseMode_no_space hpm, rfl⟩]
    simp only [hpm]
    rw [(split_once_eq_some 0 _ r.name (r.hash ++ encodeTreeRecs rs)).mpr ⟨h0, rfl⟩]
    simp only
    rw [if_pos hu, if_pos (by simp only [List.length_append]; omega)]
    rw [show (r.hash ++ encodeTreeRecs rs).take 20 = r.hash from by
        rw [← h20]; exact List.take_left _ _,
      show (r.hash ++ encodeTreeRecs rs).drop 20 = encodeTreeRecs rs from by
        rw [← h20]; exact List.drop_left _ _]
    rw [ih es2 fuel hfa2 (by simp only [List.length_cons] at hlen; omega)]
    rw [hname, hhash]

/-- Characterization of the record loop. -/
theorem parseTreeEntries_eq_some (body : List Nat) (es : List TreeEntry) :
    parseTreeEntries body = some es ↔ TreeBody body es := by
  constructor
  · exact parseTreeEntriesLoop_sound body.length body es
  · rintro ⟨recs, henc, hfa⟩
    subst henc
    exact parseTreeEntriesLoop_complete recs es _ hfa
      (le_trans (encodeTreeRecs_length_ge recs) (le_refl _))

/-- C5: the tree parser maps `40000` to Directory, `100644` and `100755`
to File, `120000` to SymbolicLink and fails on every other mode string;
a non-empty payload is a checked header plus a flat repetition of
mode-space-name-NUL-20-byte-hash records with no separators (so trailing
or insufficient bytes fail), and both the literal empty byte sequence and
a zero-length body behind a valid header parse to a tree with zero
entries. -/
theorem c5_parse_tree :
    (parseMode (ascii "40000") = some Mode.Directory ∧
     parseMode (ascii "100644") = some Mode.File ∧
     parseMode (ascii "100755") = some Mode.File ∧
     parseMode (ascii "120000") = some Mode.SymbolicLink ∧
     ∀ m : List Nat, m ≠ ascii "40000" → m ≠ ascii "100644" → m ≠ ascii "100755" →
       m ≠ ascii "120000" → parseMode m = none) ∧
    (∀ body es, parseTreeEntries body = some es ↔ TreeBody body es) ∧
    (∀ object es, object ≠ [] →
      (parse_tree object = some es ↔
        ∃ body, check_header object TREE_HEADER = some body ∧ TreeBody body es)) ∧
    parse_tree [] = some [] ∧
    parse_tree (ascii "tree 0" ++ [0]) = some [] := by
  refine ⟨⟨by decide, by decide, by decide, by decide, ?_⟩,
    parseTreeEntries_eq_some, ?_, rfl, by decide⟩
  · intro m h1 h2 h3 h4
    unfold parseMode
    rw [if_neg h1, if_neg h2, if_neg h3, if_neg h4]
  · intro object es hne
    unfold parse_tree
    rw [if_neg (by simp [List.isEmpty_iff, hne])]
    constructor
    · intro h
      cases hch : check_header object TREE_HEADER with
      | none => rw [hch] at h; exact Option.noConfusion h
      | some body =>
        simp only [hch] at h
        exact ⟨body, rfl, (parseTreeEntries_eq_some body es).mp h⟩
    · rintro ⟨body, hch, htb⟩
      simp only [hch]
      exact (parseTreeEntries_eq_some body es).mpr htb

theorem c5_parse_tree_witness :
    parse_tree (ascii "tree 28" ++ 0 :: (ascii "40000 a" ++ 0 :: List.replicate 20 7)) =
      some [⟨Mode.Directory, ascii "a", List.replicate 20 7⟩] := by
  have h := (c5_parse_tree.2.2.1 (ascii "tree 28" ++ 0 ::
      (ascii "40000 a" ++ 0 :: List.replicate 20 7))
      [⟨Mode.Directory, ascii "a", List.replicate 20 7⟩] (by decide)).mpr
    ⟨ascii "40000 a" ++ 0 :: List.replicate 20 7, by decide,
      ⟨[⟨ascii "40000", ascii "a", List.replicate 20 7⟩], by decide,
        List.Forall₂.cons ⟨by decide, rfl, rfl, by decide, by decide, by decide⟩
          List.Forall₂.nil⟩⟩
  exact h

/-! ### Reference resolution (src/Decompress/src/main.rs): `get_head` and
`Head::get_hash`.  File reads are abstracted: the head file contents are
passed in, branch-ref files come from a lookup function (`none` = file
absent).  `fs::read_to_string` fails on invalid UTF-8, hence the
`validUtf8` guards.  `str::trim_end` trims every trailing whitespace
character; on the ASCII inputs our theorems quantify over, that is
exactly the byte set below. -/

/-- ASCII bytes Rust's `char::is_whitespace` accepts: tab, LF, VT, FF,
CR, space. -/
def RUST_WS : List Nat := [9, 10, 11, 12, 13, 32]

/-- Embedding of `str::trim_end` for ASCII byte strings. -/
def trim_end (s : List Nat) : List Nat :=
  (s.reverse.dropWhile fun c => decide (c ∈ RUST_WS)).reverse

/-- The head is either at a specific commit or a named branch (enum
`Head` in the source). -/
inductive RHead where
  | Commit : List Nat → RHead
  | Branch : List Nat → RHead
deriving DecidableEq, Repr

/-- Literal `REF_PREFIX` = `"ref: refs/heads/"`. -/
def REF_MARKER : List Nat := ascii "ref: refs/heads/"

/-- Embedding of `get_head`: read the head file text, trim, and either
recognise the branch marker or decode the rest as a hash. -/
def get_head (contents : List Nat) : Option RHead :=
  if validUtf8 contents then
    match stripLead (trim_end contents) REF_MARKER with
    | some branch => some (RHead.Branch branch)
    | none => (hex_to_hash (trim_end contents)).map RHead.Commit
  else none

/-- Embedding of `Head::get_hash`: a commit head is its own hash; a
branch head reads the branch-ref file and decodes its trimmed text. -/
def get_hash (refStore : List Nat → Option (List Nat)) : RHead → Option (List Nat)
  | RHead.Commit h => some h
  | RHead.Branch b =>
    match refStore b with
    | none => none
    | some contents =>
      if validUtf8 contents then hex_to_hash (trim_end contents) else none

theorem trim_end_nil : trim_end [] = [] := rfl

theorem trim_end_append_ws {s : List Nat} {c : Nat} (hc : c ∈ RUST_WS) :
    trim_end (s ++ [c]) = trim_end s := by
  unfold trim_end
  rw [List.reverse_append, show [c].reverse ++ s.reverse = c :: s.reverse from rfl,
    List.dropWhile_cons, if_pos (by simpa using hc)]

theorem trim_end_append_not_ws {s : List Nat} {c : Nat} (hc : c ∉ RUST_WS) :
    trim_end (s ++ [c]) = s ++ [c] := by
  unfold trim_end
  rw [List.reverse_append, show [c].reverse ++ s.reverse = c :: s.reverse from rfl,
    List.dropWhile_cons, if_neg (by simpa using hc)]
  simp

theorem ascii_le_127 (t : String) (h : ∀ ch ∈ t.data, ch.toNat ≤ 127) :
    ∀ c ∈ ascii t, c ≤ 127 := by
  intro c hc
  unfold ascii at hc
  obtain ⟨ch, hch, rfl⟩ := List.mem_map.mp hc
  exact h ch hch

theorem trim_end_ascii {s : List Nat} (h : ∀ c ∈ s, c ≤ 127) :
    ∀ c ∈ trim_end s, c ≤ 127 := by
  intro c hc
  unfold trim_end at hc
  rw [List.mem_reverse] at hc
  have := List.dropWhile_sublist (l := s.reverse) (p := fun c => decide (c ∈ RUST_WS))
  have hmem : c ∈ s.reverse := this.mem hc
  exact h c (List.mem_reverse.mp hmem)

/-- The spec-trimming the C6 claim describes: remove exactly one trailing
newline when present, nothing else. -/
def trim_one_newline (s : List Nat) : List Nat :=
  if s.getLast? = some 10 then s.dropLast else s

/-- C6 counterexample: the head text of forty `a` followed by two
newlines.  The code trims both newlines (`trim_end` removes every
trailing whitespace character) and resolves to the hash, while under the
claim\'s exactly-one-newline trimming the remaining text still ends in a
newline and fails to decode as a hash, so the claim-described resolver
would fail. -/
theorem c6_counterexample :
    get_head (List.replicate 40 97 ++ [10, 10]) =
      some (RHead.Commit (List.replicate 20 170)) ∧
    hex_to_hash (trim_one_newline (List.replicate 40 97 ++ [10, 10])) = none := by decide

/-- C6 (amended): the resolver trims every trailing whitespace character
(not exactly one newline): trimming is characterized by the three
equations below; after trimming, a head text that starts with the literal
`ref: refs/heads/` is a branch whose name is the remainder, and otherwise
must decode as a hash; resolving a named branch reads the branch-ref file
and decodes it under the same trimming; in particular head content
`"ref: refs/heads/main\n"` with a `main` ref file holding forty `a`
characters and a newline resolves to exactly that hash. -/
theorem c6_resolver_amended :
    trim_end [] = [] ∧
    (∀ (s : List Nat) (c : Nat), c ∈ RUST_WS → trim_end (s ++ [c]) = trim_end s) ∧
    (∀ (s : List Nat) (c : Nat), c ∉ RUST_WS → trim_end (s ++ [c]) = s ++ [c]) ∧
    (∀ contents b : List Nat, (∀ c ∈ contents, c ≤ 127) →
      (get_head contents = some (RHead.Branch b) ↔
        trim_end contents = REF_MARKER ++ b)) ∧
    (∀ contents h : List Nat, (∀ c ∈ contents, c ≤ 127) →
      (get_head contents = some (RHead.Commit h) ↔
        stripLead (trim_end contents) REF_MARKER = none ∧
          hex_to_hash (trim_end contents) = some h)) ∧
    (∀ refStore : List Nat → Option (List Nat), ∀ b : List Nat,
      get_hash refStore (RHead.Branch b) =
        match refStore b with
        | none => none
        | some contents =>
          if validUtf8 contents then hex_to_hash (trim_end contents) else none) ∧
    get_head (ascii "ref: refs/heads/main" ++ [10]) = some (RHead.Branch (ascii "main")) ∧
    get_hash
      (fun b => if b = ascii "main" then some (List.replicate 40 97 ++ [10]) else none)
      (RHead.Branch (ascii "main")) = some (List.replicate 20 170) := by
  refine ⟨trim_end_nil, fun s c hc => trim_end_append_ws hc,
    fun s c hc => trim_end_append_not_ws hc, ?_, ?_, fun refStore b => rfl,
    by decide, by decide⟩
  · intro contents b hascii
    unfold get_head
    rw [if_pos (validUtf8_of_ascii contents hascii)]
    constructor
    · intro h
      cases hstrip : stripLead (trim_end contents) REF_MARKER with
      | some branch =>
        simp only [hstrip] at h
        rw [← RHead.Branch.inj (Option.some.inj h)]
        exact (stripLead_eq_some _ _ _).mp hstrip
      | none =>
        simp only [hstrip, Option.map_eq_some'] at h
        obtain ⟨a, _, hcontra⟩ := h
        exact absurd hcontra (by simp)
    · intro h
      rw [(stripLead_eq_some (trim_end contents) REF_MARKER b).mpr h]
  · intro contents h hascii
    unfold get_head
    rw [if_pos (validUtf8_of_ascii contents hascii)]
    constructor
    · intro hh
      cases hstrip : stripLead (trim_end contents) REF_MARKER with
      | some branch =>
        simp only [hstrip] at hh
        exact absurd (Option.some.inj hh) (by simp)
      | none =>
        simp only [hstrip, Option.map_eq_some'] at hh
        obtain ⟨a, ha, hac⟩ := hh
        exact ⟨rfl, by rw [ha, RHead.Commit.inj hac]⟩
    · rintro ⟨hstrip, hhex⟩
      simp only [hstrip, hhex]
      rfl

theorem c6_resolver_amended_witness :
    get_head (ascii "ref: refs/heads/dev" ++ [10]) = some (RHead.Branch (ascii "dev")) :=
  (c6_resolver_amended.2.2.2.1 (ascii "ref: refs/heads/dev" ++ [10]) (ascii "dev")
    (by decide)).mpr (by decide)

/-! ### Tree path resolution (src/ParseTree/src/main.rs): `get_file_blob`,
`read_tree`, `read_blob`.  `read_object` is abstracted as a total
function from hashes to decompressed bytes; the ParseTree variant of
`read_object` returns an empty byte vector when the object file is
missing, so a missing object is the empty list here. -/

/-- Header literal `BLOB_HEADER` = `b"blob "`. -/
def BLOB_HEADER : List Nat := ascii "blob "

/-- Embedding of `read_tree`: read the object bytes and parse as a tree. -/
def read_tree (store : List Nat → List Nat) (hash : List Nat) :
    Option (List TreeEntry) :=
  parse_tree (store hash)

/-- Embedding of `read_blob`: read the object bytes and header-check as a
blob, returning the body. -/
def read_blob (store : List Nat → List Nat) (hash : List Nat) : Option (List Nat) :=
  check_header (store hash) BLOB_HEADER

/-- Embedding of the `iter().find()` over tree entries. -/
def findEntry (name : List Nat) : List TreeEntry → Option TreeEntry
  | [] => none
  | e :: rest => if e.name = name then some e else findEntry name rest

/-- Embedding of `get_file_blob`: walk the path segments (the result of
`path.split('/')`), reading each current hash as a tree and following the
matching entry, then read the final hash as a blob.  The entry mode is
never consulted. -/
def get_file_blob (store : List Nat → List Nat) (tree : List Nat) :
    List (List Nat) → Option (List Nat)
  | [] => read_blob store tree
  | name :: rest =>
    match read_tree store tree with
    | none => none
    | some t =>
      match findEntry name t with
      | none => none
      | some e => get_file_blob store e.hash rest

/-- Object store of the C9 counterexample: a root tree whose entry `a`
has File mode but whose hash nevertheless refers to a tree object, and so
on down to a blob at `a/b/c`. -/
def store9 (h : List Nat) : List Nat :=
  if h = List.replicate 20 1 then
    ascii "tree 29" ++ 0 :: (ascii "100644 a" ++ 0 :: List.replicate 20 2)
  else if h = List.replicate 20 2 then
    ascii "tree 29" ++ 0 :: (ascii "100644 b" ++ 0 :: List.replicate 20 3)
  else if h = List.replicate 20 3 then
    ascii "tree 29" ++ 0 :: (ascii "100644 c" ++ 0 :: List.replicate 20 4)
  else if h = List.replicate 20 4 then
    ascii "blob 0" ++ [0]
  else []

/-- C9 counterexample: the resolver never inspects entry modes, so a path
whose non-terminal entries all have File mode still resolves successfully
when their hashes happen to refer to tree objects, instead of failing
with a not-a-directory error as the claim requires. -/
theorem c9_counterexample :
    read_tree store9 (List.replicate 20 1) =
      some [⟨Mode.File, ascii "a", List.replicate 20 2⟩] ∧
    get_file_blob store9 (List.replicate 20 1) [ascii "a", ascii "b", ascii "c"] =
      some [] := by decide

/-- C9 (amended): the resolver ignores entry modes; what fails a
non-terminal step is the referenced object, not the recorded mode.  When
a non-terminal entry refers to a blob object (the case a well-formed
store produces for a File entry), resolution fails, because the blob
bytes do not parse as a tree. -/
theorem c9_not_a_directory_amended (store : List Nat → List Nat)
    (rootHash seg : List Nat) (rest : List (List Nat)) (t : List TreeEntry)
    (e : TreeEntry)
    (htree : read_tree store rootHash = some t)
    (hfind : findEntry seg t = some e)
    (hblob : ∃ restBytes, store e.hash = BLOB_HEADER ++ restBytes)
    (hrest : rest ≠ []) :
    get_file_blob store rootHash (seg :: rest) = none := by
  obtain ⟨restBytes, hb⟩ := hblob
  show (match read_tree store rootHash with
    | none => none
    | some t =>
      match findEntry seg t with
      | none => none
      | some e => get_file_blob store e.hash rest) = none
  simp only [htree, hfind]
  cases rest with
  | nil => exact absurd rfl hrest
  | cons r rs =>
  show (match read_tree store e.hash with
    | none => none
    | some t =>
      match findEntry r t with
      | none => none
      | some e2 => get_file_blob store e2.hash rs) = none
  have hnotree : read_tree store e.hash = none := by
    unfold read_tree parse_tree
    rw [hb, show BLOB_HEADER = 98 :: ascii "lob " from by decide, List.cons_append]
    rw [if_neg (by simp [List.isEmpty_iff])]
    have hch : check_header (98 :: (ascii "lob " ++ restBytes)) TREE_HEADER = none := by
      unfold check_header
      rw [show TREE_HEADER = 116 :: ascii "ree " from by decide]
      rw [stripLead_cons_ne (by decide) _ _]
      rfl
    rw [hch]
  rw [hnotree]

theorem c9_not_a_directory_amended_witness :
    get_file_blob
      (fun h =>
        if h = List.replicate 20 1 then
          ascii "tree 29" ++ 0 :: (ascii "100644 a" ++ 0 :: List.replicate 20 2)
        else if h = List.replicate 20 2 then ascii "blob 0" ++ [0]
        else [])
      (List.replicate 20 1) [ascii "a", ascii "b"] = none :=
  c9_not_a_directory_amended _ (List.replicate 20 1) (ascii "a") [ascii "b"]
    [⟨Mode.File, ascii "a", List.replicate 20 2⟩]
    ⟨Mode.File, ascii "a", List.replicate 20 2⟩
    (by decide) (by decide) ⟨[48, 0], by decide⟩ (by decide)

/-! ### Pack index validation (src/CheckHashBuckets/src/main.rs):
`read_pack_index`.  The file stream is a byte list; `read_bytes` /
`read_exact` fail at end of stream.  The `assert!` macros panic on
failure, and the `u32` subtraction `objects - previous_objects` panics on
underflow in a debug build; every such abort is modelled as `none`. -/

/-- Embedding of `read_bytes::<N>`: take exactly `n` bytes or fail. -/
def read_bytesN (n : Nat) (stream : List Nat) : Option (List Nat × List Nat) :=
  if n ≤ stream.length then some (stream.take n, stream.drop n) else none

/-- Big-endian value of a byte list (`u32::from_be_bytes` for 4 bytes). -/
def be32 (l : List Nat) : Nat := l.foldl (fun a b => a * 256 + b) 0

/-- Strict lexicographic order on byte lists: the derived `PartialOrd`
of `Hash([u8; HASH_BYTES])` restricted to equal-length arrays, as used by
`assert!(hash > previous_hash)`. -/
def listLexLt : List Nat → List Nat → Bool
  | [], [] => false
  | [], _ :: _ => true
  | _ :: _, [] => false
  | a :: as, b :: bs => if a < b then true else if a = b then listLexLt as bs else false

/-- The `if let Some(previous_hash) = previous_hash { assert!(...) }`
guard: trivially true for the first hash of a bucket, strict
lexicographic increase afterwards. -/
def prevOk : Option (List Nat) → List Nat → Bool
  | none, _ => true
  | some p, h => listLexLt p h

/-- Embedding of the inner loop of `read_pack_index` for one bucket: read
`count` hashes, assert each starts with the bucket byte and is strictly
greater than the previous hash of the bucket, and return the rest of the
stream. -/
def readBucketHashes (stream : List Nat) (firstByte : Nat) (count : Nat)
    (prev : Option (List Nat)) : Option (List Nat) :=
  match count with
  | 0 => some stream
  | count + 1 =>
    match read_bytesN 20 stream with
    | none => none
    | some (h, rest) =>
      if h.getD 0 0 = firstByte then
        if prevOk prev h then readBucketHashes rest firstByte count (some h) else none
      else none

/-- Embedding of the outer loop of `read_pack_index` over the fanout
table: for each bucket the count is the cumulative difference
`objects - previous_objects` (u32 subtraction, which aborts on underflow
in a debug build), and the final `previous_objects` is the total. -/
def checkBuckets (fanout : List Nat) (stream : List Nat)
    (firstByte prevObjects : Nat) : Option (Nat × List Nat) :=
  match fanout with
  | [] => some (prevObjects, stream)
  | objects :: rest =>
    if prevObjects ≤ objects then
      match readBucketHashes stream firstByte (objects - prevObjects) none with
      | none => none
      | some stream2 => checkBuckets rest stream2 (firstByte + 1) objects
    else none

/-- Embedding of the fanout-reading loop: 256 big-endian u32 counters. -/
def readFanout (stream : List Nat) : Nat → Option (List Nat × List Nat)
  | 0 => some ([], stream)
  | n + 1 =>
    match read_bytesN 4 stream with
    | none => none
    | some (b, rest) =>
      match readFanout rest n with
      | none => none
      | some (vs, rest2) => some (be32 b :: vs, rest2)

/-- Embedding of `read_pack_index`: magic, version 2, fanout, buckets. -/
def read_pack_index (bytes : List Nat) : Option Nat :=
  match read_bytesN 4 bytes with
  | none => none
  | some (magic, rest) =>
    if magic = [255, 116, 79, 99] then
      match read_bytesN 4 rest with
      | none => none
      | some (vb, rest2) =>
        if be32 vb = 2 then
          match readFanout rest2 256 with
          | none => none
          | some (fanout, rest3) =>
            match checkBuckets fanout rest3 0 0 with
            | none => none
            | some (total, _) => some total
        else none
    else none

theorem read_bytesN_eq_some {n : Nat} {stream h r : List Nat} :
    read_bytesN n stream = some (h, r) ↔ stream = h ++ r ∧ h.length = n := by
  unfold read_bytesN
  split
  · rename_i hle
    constructor
    · intro hh
      have h1 : stream.take n = h := congrArg Prod.fst (Option.some.inj hh)
      have h2 : stream.drop n = r := congrArg Prod.snd (Option.some.inj hh)
      refine ⟨by rw [← h1, ← h2, List.take_append_drop], ?_⟩
      rw [← h1, List.length_take]
      omega
    · rintro ⟨hs, hlen⟩
      subst hs
      rw [← hlen, List.take_left, List.drop_left]
  · rename_i hle
    constructor
    · intro hh; exact absurd hh (by simp)
    · rintro ⟨hs, hlen⟩
      subst hs
      rw [List.length_append] at hle
      omega

theorem checkBuckets_sound : ∀ (fanout stream : List Nat) (fb p total : Nat)
    (rest : List Nat), checkBuckets fanout stream fb p = some (total, rest) →
    List.Chain' (· ≤ ·) (p :: fanout) ∧ total = fanout.getLastD p := by
  intro fanout
  induction fanout with
  | nil =>
    intro stream fb p total rest h
    have := congrArg Prod.fst (Option.some.inj h)
    exact ⟨List.chain'_singleton p, this.symm⟩
  | cons objects restF ih =>
    intro stream fb p total rest h
    show List.Chain' (· ≤ ·) (p :: objects :: restF) ∧
      total = (objects :: restF).getLastD p
    have h2 : (if p ≤ objects then
        match readBucketHashes stream fb (objects - p) none with
        | none => none
        | some stream2 => checkBuckets restF stream2 (fb + 1) objects
      else none) = some (total, rest) := h
    by_cases hle : p ≤ objects
    case neg =>
      rw [if_neg hle] at h2
      exact Option.noConfusion h2
    rw [if_pos hle] at h2
    cases hbh : readBucketHashes stream fb (objects - p) none with
    | none => rw [hbh] at h2; exact Option.noConfusion h2
    | some stream2 =>
    simp only [hbh] at h2
    obtain ⟨hchain, htotal⟩ := ih stream2 (fb + 1) objects total rest h2
    refine ⟨List.chain'_cons.mpr ⟨hle, hchain⟩, ?_⟩
    rw [List.getLastD_cons]
    exact htotal

/-- C7: the pack index bucket walk succeeds only on a monotonically
non-decreasing fanout table and then treats the last entry as the total
object count; any adjacent decrease makes it fail (in a debug build the
u32 cumulative-difference subtraction aborts), as on the table starting
`[5, 3, ...]` even when the stream holds perfectly valid bucket-0
hashes. -/
theorem c7_fanout_monotonic :
    (∀ (fanout stream : List Nat) (fb p total : Nat) (rest : List Nat),
      checkBuckets fanout stream fb p = some (total, rest) →
        List.Chain' (· ≤ ·) (p :: fanout) ∧ total = fanout.getLastD p) ∧
    (∀ (fanout stream : List Nat) (fb p : Nat),
      ¬ List.Chain' (· ≤ ·) (p :: fanout) → checkBuckets fanout stream fb p = none) ∧
    checkBuckets (5 :: 3 :: List.replicate 254 3)
      (([0, 0] ++ List.replicate 18 0) ++ (([0, 1] ++ List.replicate 18 0) ++
        (([0, 2] ++ List.replicate 18 0) ++ (([0, 3] ++ List.replicate 18 0) ++
          ([0, 4] ++ List.replicate 18 0))))) 0 0 = none := by
  refine ⟨checkBuckets_sound, ?_, by decide⟩
  intro fanout stream fb p hmono
  cases hcb : checkBuckets fanout stream fb p with
  | none => rfl
  | some pr =>
    obtain ⟨total, rest⟩ := pr
    exact absurd (checkBuckets_sound fanout stream fb p total rest hcb).1 hmono

theorem c7_fanout_monotonic_witness :
    checkBuckets [1, 0] [] 0 0 = none :=
  c7_fanout_monotonic.2.1 [1, 0] [] 0 0 (by
    intro h
    have := (List.chain'_cons.mp (List.chain'_cons.mp h).2).1
    omega)

theorem readBucketHashes_iff : ∀ (count : Nat) (stream : List Nat) (fb : Nat)
    (prev : Option (List Nat)) (rest : List Nat),
    readBucketHashes stream fb count prev = some rest ↔
      ∃ hs : List (List Nat), hs.length = count ∧
        (∀ h ∈ hs, h.length = 20 ∧ h.getD 0 0 = fb) ∧
        List.Chain' (fun a b => listLexLt a b = true) (prev.toList ++ hs) ∧
        stream = hs.flatten ++ rest := by
  intro count
  induction count with
  | zero =>
    intro stream fb prev rest
    show some stream = some rest ↔ _
    constructor
    · intro h
      refine ⟨[], rfl, by simp, ?_, by simp [Option.some.inj h]⟩
      cases prev with
      | none => exact List.chain'_nil
      | some p => exact List.chain'_singleton p
    · rintro ⟨hs, hlen, _, _, hstream⟩
      rw [List.length_eq_zero.mp hlen] at hstream
      simp at hstream
      rw [hstream]
  | succ count ih =>
    intro stream fb prev rest
    constructor
    · intro hh0
      have hh : (match read_bytesN 20 stream with
        | none => none
        | some (h, r) =>
          if h.getD 0 0 = fb then
            if prevOk prev h = true then readBucketHashes r fb count (some h) else none
          else none) = some rest := hh0
      cases hrb : read_bytesN 20 stream with
      | none => rw [hrb] at hh; exact Option.noConfusion hh
      | some pr =>
      obtain ⟨h, r⟩ := pr
      simp only [hrb] at hh
      obtain ⟨hstream, hlen20⟩ := read_bytesN_eq_some.mp hrb
      by_cases hfb : h.getD 0 0 = fb
      case neg => rw [if_neg hfb] at hh; exact Option.noConfusion hh
      rw [if_pos hfb] at hh
      by_cases hpk : prevOk prev h = true
      case neg => rw [if_neg hpk] at hh; exact Option.noConfusion hh
      rw [if_pos hpk] at hh
      obtain ⟨hs2, hlen2, hprops, hchain, hr⟩ := (ih r fb (some h) rest).mp hh
      refine ⟨h :: hs2, by simp [hlen2], ?_, ?_, by rw [hstream, hr]; simp⟩
      · intro x hx
        rcases List.mem_cons.mp hx with rfl | hx
        · exact ⟨hlen20, hfb⟩
        · exact hprops x hx
      · cases prev with
        | none => exact hchain
        | some p =>
          show List.Chain' _ (p :: h :: hs2)
          exact List.chain'_cons.mpr ⟨hpk, hchain⟩
    · rintro ⟨hs, hlen, hprops, hchain, hstream⟩
      cases hs with
      | nil => simp at hlen
      | cons h hs2 =>
      obtain ⟨hlen20, hfb⟩ := hprops h (by simp)
      have hchain2 : List.Chain' (fun a b => listLexLt a b = true)
          ((some h).toList ++ hs2) := by
        cases prev with
        | none => exact hchain
        | some p => exact (List.chain'_cons.mp hchain).2
      have hpk : prevOk prev h = true := by
        cases prev with
        | none => rfl
        | some p => exact (List.chain'_cons.mp hchain).1
      have hrec := (ih (hs2.flatten ++ rest) fb (some h) rest).mpr
        ⟨hs2, by simpa using hlen, fun x hx => hprops x (by simp [hx]), hchain2, rfl⟩
      show (match read_bytesN 20 stream with
        | none => none
        | some (h, r) =>
          if h.getD 0 0 = fb then
            if prevOk prev h = true then readBucketHashes r fb count (some h) else none
          else none) = some rest
      rw [hstream, show (h :: hs2).flatten ++ rest = h ++ (hs2.flatten ++ rest) from by simp,
        read_bytesN_eq_some.mpr ⟨rfl, hlen20⟩]
      show (if h.getD 0 0 = fb then
          if prevOk prev h = true then
            readBucketHashes (hs2.flatten ++ rest) fb count (some h)
          else none
        else none) = some rest
      rw [if_pos hfb, if_pos hpk]
      exact hrec

/-- C8: for one bucket, the reader accepts exactly a run of `count`
20-byte hashes whose leading byte is the bucket byte and which are
strictly increasing in byte-lexicographic order; the bucket count in the
outer loop is the fanout difference `objects - previous_objects`; two
equal-leading-byte hashes in descending order are rejected and in
ascending order accepted. -/
theorem c8_bucket_hashes :
    (∀ (count : Nat) (stream : List Nat) (fb : Nat) (rest : List Nat),
      readBucketHashes stream fb count none = some rest ↔
        ∃ hs : List (List Nat), hs.length = count ∧
          (∀ h ∈ hs, h.length = 20 ∧ h.getD 0 0 = fb) ∧
          List.Chain' (fun a b => listLexLt a b = true) hs ∧
          stream = hs.flatten ++ rest) ∧
    (∀ (objects : Nat) (restF : List Nat) (stream : List Nat) (fb p : Nat),
      p ≤ objects →
      checkBuckets (objects :: restF) stream fb p =
        (match readBucketHashes stream fb (objects - p) none with
         | none => none
         | some stream2 => checkBuckets restF stream2 (fb + 1) objects)) ∧
    readBucketHashes
      ((7 :: List.replicate 18 0 ++ [2]) ++ (7 :: List.replicate 18 0 ++ [1]))
      7 2 none = none ∧
    readBucketHashes
      ((7 :: List.replicate 18 0 ++ [1]) ++ (7 :: List.replicate 18 0 ++ [2]))
      7 2 none = some [] := by
  refine ⟨?_, ?_, by decide, by decide⟩
  · intro count stream fb rest
    have h := readBucketHashes_iff count stream fb none rest
    simpa using h
  · intro objects restF stream fb p hle
    show (if p ≤ objects then
        match readBucketHashes stream fb (objects - p) none with
        | none => none
        | some stream2 => checkBuckets restF stream2 (fb + 1) objects
      else none) = _
    rw [if_pos hle]

theorem c8_bucket_hashes_witness :
    readBucketHashes (7 :: List.replicate 19 0) 7 1 none = some [] :=
  (c8_bucket_hashes.1 1 (7 :: List.replicate 19 0) 7 []).mpr
    ⟨[7 :: List.replicate 19 0], by decide, by decide, List.chain'_singleton _,
      by simp⟩

end RustGit
